import Mathlib

/-!
Verification of the blockrsync differential block-sync engine.

This file gives a shallow embedding, in Lean 4, of the parts of the
`migtools/rsync-transfer` Go sources that the specification's claims are
about:

* the file hasher (`FileHasher`): worker-count selection, hash-map
  diffing (`DiffHashes`), and the binary serialization of hash maps
  (`SerializeHashes` / `DeserializeHashes`);
* the block-framing decoder (`BlockReader.Next` / `handleReadError`);
* the sync server's block-reception path (`writeBlocksToFile`,
  `truncateFileIfNeeded`, `handleEmptyBlock`, `writeBlockToOffset`);
* the sync client's block-emission path (`writeBlocksToServer`,
  `isEmptyBlock`) and dial-retry loop, and the proxy client's dial loop.

Machine `int64` values are embedded as `Int`; byte strings as `List Nat`
with little-endian 8-byte integer fields; Go maps as association lists
with (assumed) distinct keys; the network stream as a list of bytes plus
a flag saying whether the stream ends in a non-EOF I/O error; files as
their byte contents.  Syscalls that can only fail (hole punching on an
unsupported filesystem) are modelled by a capability flag in the
configuration.  The server additionally records a trace of the file
operations it performs, so that theorems can talk about what was written
where without re-deriving it from file contents.
-/

namespace Blockrsync

/-! ## Little-endian 8-byte integers (Go `binary.LittleEndian` int64) -/

/-- The 8 little-endian bytes of an `int64` value, as Go's
`binary.Write(w, binary.LittleEndian, v)` emits them (two's complement). -/
def toLE (v : Int) : List Nat :=
  let u : Nat := (v % (2 : Int) ^ 64).toNat
  [u % 256, u / 256 % 256, u / 256 ^ 2 % 256, u / 256 ^ 3 % 256,
   u / 256 ^ 4 % 256, u / 256 ^ 5 % 256, u / 256 ^ 6 % 256, u / 256 ^ 7 % 256]

/-- Decode 8 little-endian bytes into an `int64` value (two's complement),
as Go's `binary.Read(r, binary.LittleEndian, &v)` does. -/
def fromLE (bs : List Nat) : Int :=
  let u : Nat := bs.foldr (fun b acc => b + 256 * acc) 0
  if u < 2 ^ 63 then (u : Int) else (u : Int) - 2 ^ 64

theorem toLE_length (v : Int) : (toLE v).length = 8 := rfl

theorem fromLE_toLE {v : Int} (h1 : -(2 ^ 63) ≤ v) (h2 : v < 2 ^ 63) :
    fromLE (toLE v) = v := by
  have hnn : (0 : Int) ≤ v % 2 ^ 64 := Int.emod_nonneg v (by norm_num)
  have hlt : v % 2 ^ 64 < 2 ^ 64 := Int.emod_lt_of_pos v (by norm_num)
  set u : Nat := (v % (2 : Int) ^ 64).toNat with hu
  have hult : u < 2 ^ 64 := by omega
  have hreassemble :
      u % 256 + 256 * (u / 256 % 256 + 256 * (u / 256 ^ 2 % 256 + 256 * (u / 256 ^ 3 % 256 +
        256 * (u / 256 ^ 4 % 256 + 256 * (u / 256 ^ 5 % 256 + 256 * (u / 256 ^ 6 % 256 +
        256 * (u / 256 ^ 7 % 256 + 256 * 0))))))) = u := by omega
  simp only [toLE, fromLE, List.foldr]
  rw [hreassemble]
  rcases le_or_lt 0 v with hv | hv
  · have hv64 : v % 2 ^ 64 = v := Int.emod_eq_of_lt hv (by omega)
    have huv : (u : Int) = v := by omega
    have hu63 : u < 2 ^ 63 := by omega
    rw [if_pos hu63]
    exact huv
  · have hv64 : v % 2 ^ 64 = v + 2 ^ 64 := by omega
    have huv : (u : Int) = v + 2 ^ 64 := by omega
    have hu63 : ¬ u < 2 ^ 63 := by omega
    rw [if_neg hu63]
    omega

/-! ## Association-list model of Go maps `map[int64][]byte` -/

/-- Digest values: raw byte strings (BLAKE2b-512 digests are 64 bytes). -/
abbrev Digest := List Nat

/-- A Go `map[int64][]byte`, embedded as an association list.  Iteration
order of a Go map is unspecified; the list order stands in for one such
order, and all map-level theorems carry `Nodup` hypotheses on the keys. -/
abbrev HashMap' := List (Int × Digest)

/-- Lookup of a key, mirroring Go's `cmpHash[k]` / `_, ok := m[k]`. -/
def lookupA (k : Int) : HashMap' → Option Digest
  | [] => none
  | (k', v) :: t => if k' = k then some v else lookupA k t

/-- Removal of a key, mirroring Go's `delete(m, k)`. -/
def eraseKey (k : Int) : HashMap' → HashMap'
  | [] => []
  | (k', v) :: t => if k' = k then t else (k', v) :: eraseKey k t

/-- The key list of a map. -/
def keysOf (m : HashMap') : List Int := m.map Prod.fst

theorem lookupA_isSome_iff {k : Int} {m : HashMap'} :
    (lookupA k m).isSome = true ↔ k ∈ keysOf m := by
  induction m with
  | nil => simp [lookupA, keysOf]
  | cons p t ih =>
    obtain ⟨k', v⟩ := p
    by_cases h : k' = k
    · subst h; simp [lookupA, keysOf]
    · have h2 : k ≠ k' := fun e => h e.symm
      simp [lookupA, keysOf, h, h2, ih]

theorem lookupA_eq_none_iff {k : Int} {m : HashMap'} :
    lookupA k m = none ↔ k ∉ keysOf m := by
  rw [← lookupA_isSome_iff]
  cases lookupA k m <;> simp

theorem lookupA_eraseKey_ne {k k' : Int} (m : HashMap') (h : k' ≠ k) :
    lookupA k (eraseKey k' m) = lookupA k m := by
  induction m with
  | nil => rfl
  | cons p t ih =>
    obtain ⟨k0, v0⟩ := p
    by_cases h0 : k0 = k'
    · rw [eraseKey, if_pos h0, lookupA, if_neg (fun e => h (h0.symm.trans e))]
    · rw [eraseKey, if_neg h0, lookupA, lookupA, ih]

theorem keysOf_eraseKey_subset {k : Int} {m : HashMap'} :
    ∀ x ∈ keysOf (eraseKey k m), x ∈ keysOf m := by
  induction m with
  | nil => simp [eraseKey, keysOf]
  | cons p t ih =>
    obtain ⟨k0, v0⟩ := p
    by_cases h0 : k0 = k
    · rw [eraseKey, if_pos h0]
      intro x hx
      simp only [keysOf, List.map_cons, List.mem_cons]
      exact Or.inr hx
    · rw [eraseKey, if_neg h0]
      intro x hx
      simp only [keysOf, List.map_cons, List.mem_cons] at hx ⊢
      rcases hx with hx | hx
      · exact Or.inl hx
      · exact Or.inr (ih x hx)

theorem keysOf_eraseKey_nodup {k : Int} {m : HashMap'}
    (h : (keysOf m).Nodup) : (keysOf (eraseKey k m)).Nodup := by
  induction m with
  | nil => simp [eraseKey, keysOf]
  | cons p t ih =>
    obtain ⟨k0, v0⟩ := p
    simp only [keysOf, List.map_cons, List.nodup_cons] at h
    by_cases h0 : k0 = k
    · rw [eraseKey, if_pos h0]
      exact h.2
    · rw [eraseKey, if_neg h0]
      simp only [keysOf, List.map_cons, List.nodup_cons]
      exact ⟨fun hx => h.1 (keysOf_eraseKey_subset _ hx), ih h.2⟩

theorem lookupA_eraseKey_self {k : Int} {m : HashMap'}
    (h : (keysOf m).Nodup) : lookupA k (eraseKey k m) = none := by
  induction m with
  | nil => rfl
  | cons p t ih =>
    obtain ⟨k0, v0⟩ := p
    simp only [keysOf, List.map_cons, List.nodup_cons] at h
    by_cases h0 : k0 = k
    · rw [eraseKey, if_pos h0, lookupA_eq_none_iff]
      exact h0 ▸ h.1
    · rw [eraseKey, if_neg h0, lookupA, if_neg h0, ih h.2]

/-! ## FileHasher: worker count and whole-file hashing

Embedded from `FileHasher.HashFile`, `FileHasher.concurrentHashCount` and
`FileHasher.calculateOffsets`.  The concurrent hashing pipeline is
deterministic in its result: with at least one worker every queued offset
is hashed and collected; with zero workers nothing consumes the offset
queue and the result map stays empty. -/

/-- `FileHasher.concurrentHashCount`:
`int(math.Min(float64(defaultConcurrency), float64(int(fileSize/f.blockSize))))`. -/
def concurrentHashCount (blockSize fileSize : Int) : Int :=
  min 25 (fileSize / blockSize)

/-- The offsets queued by `FileHasher.calculateOffsets`: `0, B, 2B, …`
strictly below the file size. -/
def blockOffsets (blockSize fileSize : Int) : List Int :=
  (List.range ((fileSize.toNat + blockSize.toNat - 1) / blockSize.toNat)).map
    (fun i => blockSize * (i : Int))

/-- Denotation of `FileHasher.HashFile` when every read succeeds:
returns the file size, and the hash map holding a digest for every block
offset — except that with zero workers (`concurrentHashCount ≤ 0`) no
offset is ever consumed and the map stays empty.  `hashBlock` abstracts
the BLAKE2b-512 digest of the block at a given offset. -/
def hashFileModel (blockSize fileSize : Int) (hashBlock : Int → Digest) :
    Int × HashMap' :=
  if concurrentHashCount blockSize fileSize ≤ 0 then (fileSize, [])
  else (fileSize, (blockOffsets blockSize fileSize).map (fun o => (o, hashBlock o)))

/-! ## FileHasher.DiffHashes -/

/-- The main loop of `FileHasher.DiffHashes`: for each `(k,v)` of the
local map, include `k` if absent from `cmp` or bound to different bytes;
when present, delete `k` from `cmp`.  Returns the collected offsets and
the remaining comparison map. -/
def diffLoop : HashMap' → HashMap' → List Int × HashMap'
  | [], cmp => ([], cmp)
  | (k, v) :: t, cmp =>
    match lookupA k cmp with
    | none =>
      let r := diffLoop t cmp
      (k :: r.1, r.2)
    | some w =>
      let r := diffLoop t (eraseKey k cmp)
      (if w ≠ v then k :: r.1 else r.1, r.2)

/-- `FileHasher.DiffHashes`: fails on mismatched block sizes, otherwise
runs the diff loop and then appends every remaining comparison key that
is below the local file size. -/
def diffHashes (fileSize blockSize : Int) (hashes : HashMap')
    (otherBlockSize : Int) (cmp : HashMap') : Except String (List Int) :=
  if otherBlockSize ≠ blockSize then .error "block size mismatch"
  else
    let r := diffLoop hashes cmp
    .ok (r.1 ++ (r.2.filter (fun p => p.1 < fileSize)).map Prod.fst)

theorem diffLoop_lookup_snd {k : Int} :
    ∀ (hs cmp : HashMap'), (keysOf cmp).Nodup →
      lookupA k (diffLoop hs cmp).2 =
        if k ∈ keysOf hs then none else lookupA k cmp := by
  intro hs
  induction hs with
  | nil => intro cmp _; simp [diffLoop, keysOf]
  | cons p t ih =>
    intro cmp hc
    obtain ⟨k0, v0⟩ := p
    have hmem : k ∈ keysOf ((k0, v0) :: t) ↔ k = k0 ∨ k ∈ keysOf t := by
      simp [keysOf]
    rw [diffLoop]
    rcases hl : lookupA k0 cmp with _ | w
    · simp only []
      rw [ih cmp hc]
      by_cases hk : k = k0
      · subst hk
        by_cases ht : k ∈ keysOf t
        · simp [hmem, ht]
        · simp [hmem, ht, hl]
      · by_cases ht : k ∈ keysOf t <;> simp [hmem, hk, ht]
    · simp only []
      rw [ih (eraseKey k0 cmp) (keysOf_eraseKey_nodup hc)]
      by_cases hk : k = k0
      · subst hk
        by_cases ht : k ∈ keysOf t
        · simp [hmem, ht]
        · simp [hmem, ht, lookupA_eraseKey_self hc]
      · rw [lookupA_eraseKey_ne cmp (fun e => hk e.symm)]
        by_cases ht : k ∈ keysOf t <;> simp [hmem, hk, ht]

theorem diffLoop_snd_nodup :
    ∀ (hs cmp : HashMap'), (keysOf cmp).Nodup →
      (keysOf (diffLoop hs cmp).2).Nodup := by
  intro hs
  induction hs with
  | nil => intro cmp hc; exact hc
  | cons p t ih =>
    intro cmp hc
    obtain ⟨k0, v0⟩ := p
    rw [diffLoop]
    rcases lookupA k0 cmp with _ | w
    · exact ih cmp hc
    · exact ih (eraseKey k0 cmp) (keysOf_eraseKey_nodup hc)

theorem diffLoop_fst_subset :
    ∀ (hs cmp : HashMap') (x : Int), x ∈ (diffLoop hs cmp).1 → x ∈ keysOf hs := by
  intro hs
  induction hs with
  | nil => intro cmp x hx; simp [diffLoop] at hx
  | cons p t ih =>
    intro cmp x hx
    obtain ⟨k0, v0⟩ := p
    rw [diffLoop] at hx
    simp only [keysOf, List.map_cons, List.mem_cons]
    rcases hl : lookupA k0 cmp with _ | w <;> rw [hl] at hx
    · simp only [List.mem_cons] at hx
      rcases hx with hx | hx
      · exact Or.inl hx
      · exact Or.inr (ih cmp x hx)
    · by_cases hw : w ≠ v0
      · simp only [if_pos hw, List.mem_cons] at hx
        rcases hx with hx | hx
        · exact Or.inl hx
        · exact Or.inr (ih (eraseKey k0 cmp) x hx)
      · simp only [if_neg hw] at hx
        exact Or.inr (ih (eraseKey k0 cmp) x hx)

theorem diffLoop_fst_nodup :
    ∀ (hs cmp : HashMap'), (keysOf hs).Nodup → (diffLoop hs cmp).1.Nodup := by
  intro hs
  induction hs with
  | nil => intro cmp _; simp [diffLoop]
  | cons p t ih =>
    intro cmp hh
    obtain ⟨k0, v0⟩ := p
    simp only [keysOf, List.map_cons, List.nodup_cons] at hh
    rw [diffLoop]
    rcases lookupA k0 cmp with _ | w
    · simp only [List.nodup_cons]
      exact ⟨fun hx => hh.1 (diffLoop_fst_subset t cmp k0 hx), ih cmp hh.2⟩
    · by_cases hw : w ≠ v0
      · simp only [if_pos hw, List.nodup_cons]
        exact ⟨fun hx => hh.1 (diffLoop_fst_subset t (eraseKey k0 cmp) k0 hx),
          ih (eraseKey k0 cmp) hh.2⟩
      · simp only [if_neg hw]
        exact ih (eraseKey k0 cmp) hh.2

theorem diffLoop_fst_mem {k : Int} :
    ∀ (hs cmp : HashMap'), (keysOf hs).Nodup → (keysOf cmp).Nodup →
      (k ∈ (diffLoop hs cmp).1 ↔
        ((lookupA k hs).isSome ∧
          (lookupA k cmp = none ∨ lookupA k cmp ≠ lookupA k hs))) := by
  intro hs
  induction hs with
  | nil => intro cmp _ _; simp [diffLoop, lookupA]
  | cons p t ih =>
    intro cmp hh hc
    obtain ⟨k0, v0⟩ := p
    simp only [keysOf, List.map_cons, List.nodup_cons] at hh
    rw [diffLoop]
    by_cases hk : k = k0
    · subst hk
      have hnt : ¬ (lookupA k t).isSome := by
        rw [lookupA_isSome_iff]; exact hh.1
      have hlh : lookupA k ((k, v0) :: t) = some v0 := by
        rw [lookupA, if_pos rfl]
      rcases hl : lookupA k cmp with _ | w
      · simp only [List.mem_cons, true_or, hlh, hl]
        simp
      · simp only [hlh, hl]
        by_cases hw : w ≠ v0
        · simp only [if_pos hw, List.mem_cons, true_or, true_iff]
          refine ⟨by simp, Or.inr (by simp [hw])⟩
        · push_neg at hw
          subst hw
          rw [if_neg (fun hne => hne rfl)]
          rw [ih (eraseKey k cmp) hh.2 (keysOf_eraseKey_nodup hc)]
          simp [hnt]
    · have hlh : lookupA k ((k0, v0) :: t) = lookupA k t := by
        rw [lookupA, if_neg (fun e => hk e.symm)]
      rcases hl : lookupA k0 cmp with _ | w
      · simp only [List.mem_cons, hk, false_or, hlh]
        exact ih cmp hh.2 hc
      · have herase : lookupA k (eraseKey k0 cmp) = lookupA k cmp :=
          lookupA_eraseKey_ne cmp (fun e => hk e.symm)
        by_cases hw : w ≠ v0
        · simp only [if_pos hw, List.mem_cons, hk, false_or, hlh]
          rw [ih (eraseKey k0 cmp) hh.2 (keysOf_eraseKey_nodup hc), herase]
        · simp only [if_neg hw, hlh]
          rw [ih (eraseKey k0 cmp) hh.2 (keysOf_eraseKey_nodup hc), herase]

/-- C1.  `DiffHashes` with matching block sizes succeeds, returns no
offset twice, and its offsets — as a set — are exactly the local keys
that are absent from or bound differently in the peer map, together with
the peer keys absent locally that lie below the local file size. -/
theorem DiffHashes_correct (fs B : Int) (hs cmp : HashMap')
    (hh : (keysOf hs).Nodup) (hc : (keysOf cmp).Nodup) :
    ∃ d, diffHashes fs B hs B cmp = .ok d ∧ d.Nodup ∧
      ∀ k : Int, k ∈ d ↔
        (((lookupA k hs).isSome ∧
            (lookupA k cmp = none ∨ lookupA k cmp ≠ lookupA k hs)) ∨
          (k ∈ keysOf cmp ∧ k ∉ keysOf hs ∧ k < fs)) := by
  refine ⟨(diffLoop hs cmp).1 ++
    ((diffLoop hs cmp).2.filter (fun p => p.1 < fs)).map Prod.fst, ?_, ?_, ?_⟩
  · rw [diffHashes, if_neg (by simp)]
  · apply List.Nodup.append
    · exact diffLoop_fst_nodup hs cmp hh
    · have hsub : ((diffLoop hs cmp).2.filter (fun p => p.1 < fs)).map Prod.fst
          |>.Sublist (keysOf (diffLoop hs cmp).2) :=
        ((diffLoop hs cmp).2.filter_sublist).map Prod.fst
      exact hsub.nodup (diffLoop_snd_nodup hs cmp hc)
    · intro x hx1 hx2
      have hx1' := diffLoop_fst_subset hs cmp x hx1
      simp only [List.mem_map, List.mem_filter] at hx2
      obtain ⟨⟨kx, vx⟩, ⟨hmem, _⟩, hfst⟩ := hx2
      have : (lookupA x (diffLoop hs cmp).2).isSome := by
        rw [lookupA_isSome_iff, keysOf]
        exact List.mem_map.mpr ⟨(kx, vx), hmem, hfst⟩
      rw [diffLoop_lookup_snd hs cmp hc, if_pos hx1'] at this
      simp at this
  · intro k
    simp only [List.mem_append]
    rw [diffLoop_fst_mem hs cmp hh hc]
    have hsnd : (k ∈ ((diffLoop hs cmp).2.filter (fun p => p.1 < fs)).map Prod.fst) ↔
        ((lookupA k (diffLoop hs cmp).2).isSome ∧ k < fs) := by
      rw [lookupA_isSome_iff]
      simp only [List.mem_map, List.mem_filter, decide_eq_true_eq, keysOf]
      constructor
      · rintro ⟨⟨kx, vx⟩, ⟨hmem, hlt⟩, hfst⟩
        simp only at hfst
        subst hfst
        exact ⟨⟨(kx, vx), hmem, rfl⟩, hlt⟩
      · rintro ⟨⟨⟨kx, vx⟩, hmem, hfst⟩, hlt⟩
        simp only at hfst
        subst hfst
        exact ⟨(kx, vx), ⟨hmem, hlt⟩, rfl⟩
    rw [hsnd, diffLoop_lookup_snd hs cmp hc]
    by_cases hkh : k ∈ keysOf hs
    · simp only [if_pos hkh]
      have hks : (lookupA k hs).isSome := lookupA_isSome_iff.mpr hkh
      simp [hkh, hks]
    · simp only [if_neg hkh]
      have hns : ¬ (lookupA k hs).isSome := fun h => hkh (lookupA_isSome_iff.mp h)
      simp only [lookupA_isSome_iff]
      simp [hkh, hns]

/-- Witness for `DiffHashes_correct` at a concrete input: local map with
blocks 0 and 4096, peer map agreeing at 0, differing at 4096, having an
extra in-range key 8192 and an extra out-of-range key 20480. -/
theorem DiffHashes_correct_witness :
    ∃ d, diffHashes 12288 4096 [(0, [1]), (4096, [2])] 4096
        [(0, [1]), (4096, [3]), (8192, [4]), (20480, [5])] = .ok d ∧ d.Nodup ∧
      ∀ k : Int, k ∈ d ↔
        (((lookupA k [(0, [1]), (4096, [2])]).isSome ∧
            (lookupA k [(0, [1]), (4096, [3]), (8192, [4]), (20480, [5])] = none ∨
              lookupA k [(0, [1]), (4096, [3]), (8192, [4]), (20480, [5])] ≠
                lookupA k [(0, [1]), (4096, [2])])) ∨
          (k ∈ keysOf [(0, [1]), (4096, [3]), (8192, [4]), (20480, [5])] ∧
            k ∉ keysOf [(0, [1]), (4096, [2])] ∧ k < 12288)) :=
  DiffHashes_correct 12288 4096 _ _ (by decide) (by decide)

/-! ## FileHasher.SerializeHashes / FileHasher.DeserializeHashes

`SerializeHashes` emits `blockSize:int64`, `count:int64`, then the map
entries in ascending key order as `offset:int64` followed by the 64-byte
digest; a digest whose length is not 64 aborts with an error (the model
discards the partially written prefix in that case, which the round-trip
claims never exercise).  `DeserializeHashes` is the byte-level inverse,
validating `0 ≤ offset ≤ count*blockSize` for each entry. -/

/-- Insertion into a key-sorted association list (ascending keys). -/
def insertByKey (p : Int × Digest) : HashMap' → HashMap'
  | [] => [p]
  | q :: t => if p.1 ≤ q.1 then p :: q :: t else q :: insertByKey p t

/-- Ascending sort of the entries by key, mirroring
`slices.SortFunc(keys, int64SortFunc)` inside `SerializeHashes`. -/
def sortByKey : HashMap' → HashMap'
  | [] => []
  | p :: t => insertByKey p (sortByKey t)

theorem sortByKey_eq_self {m : HashMap'}
    (h : List.Pairwise (fun p q : Int × Digest => p.1 < q.1) m) :
    sortByKey m = m := by
  induction m with
  | nil => rfl
  | cons p t ih =>
    obtain ⟨h1, h2⟩ := List.pairwise_cons.mp h
    rw [sortByKey, ih h2]
    cases t with
    | nil => rfl
    | cons q t2 =>
      have hle : p.1 ≤ q.1 := le_of_lt (h1 q (by simp))
      rw [insertByKey, if_pos hle]

/-- The per-entry emission loop of `SerializeHashes`. -/
def serializeEntries : HashMap' → Except String (List Nat)
  | [] => .ok []
  | (k, d) :: t =>
    if d.length ≠ 64 then .error "invalid hash length"
    else
      match serializeEntries t with
      | .error e => .error e
      | .ok rest => .ok (toLE k ++ d ++ rest)

/-- `FileHasher.SerializeHashes` as a byte-list producer. -/
def serializeHashes (blockSize : Int) (hashes : HashMap') : Except String (List Nat) :=
  match serializeEntries (sortByKey hashes) with
  | .error e => .error e
  | .ok entries => .ok (toLE blockSize ++ toLE (hashes.length : Int) ++ entries)

/-- Reading an exact number of bytes from the head of the input
(`io.ReadFull` / `binary.Read` against a byte buffer). -/
def readChunk (n : Nat) (bs : List Nat) : Option (List Nat × List Nat) :=
  if n ≤ bs.length then some (bs.take n, bs.drop n) else none

/-- The entry-reading loop of `DeserializeHashes`, iterated `count`
times: each step reads an 8-byte offset, validates
`0 ≤ offset ≤ count*blockSize`, then reads the 64-byte digest. -/
def deserializeEntries (blockSize count : Int) :
    Nat → List Nat → Except String (HashMap' × List Nat)
  | 0, bs => .ok ([], bs)
  | i + 1, bs =>
    match readChunk 8 bs with
    | none => .error "read error"
    | some (ob, bs1) =>
      let off := fromLE ob
      if off < 0 ∨ off > count * blockSize then .error "invalid offset"
      else
        match readChunk 64 bs1 with
        | none => .error "read error"
        | some (d, bs2) =>
          match deserializeEntries blockSize count i bs2 with
          | .error e => .error e
          | .ok (rest, bs3) => .ok ((off, d) :: rest, bs3)

/-- `FileHasher.DeserializeHashes`: reads `blockSize`, `count`, then
`count` entries; trailing bytes are left unread. -/
def deserializeHashes (bs : List Nat) : Except String (Int × HashMap') :=
  match readChunk 8 bs with
  | none => .error "read error"
  | some (bb, bs1) =>
    let blockSize := fromLE bb
    match readChunk 8 bs1 with
    | none => .error "read error"
    | some (cb, bs2) =>
      let count := fromLE cb
      match deserializeEntries blockSize count count.toNat bs2 with
      | .error e => .error e
      | .ok (hashes, _) => .ok (blockSize, hashes)

/-- `DeserializeHashes` applied to the output of `SerializeHashes`. -/
def serThenDeser (blockSize : Int) (hashes : HashMap') : Except String (Int × HashMap') :=
  match serializeHashes blockSize hashes with
  | .error e => .error e
  | .ok bs => deserializeHashes bs

theorem readChunk_exact {n : Nat} {xs r : List Nat} (h : xs.length = n) :
    readChunk n (xs ++ r) = some (xs, r) := by
  subst h
  simp [readChunk, List.take_left, List.drop_left]

theorem serializeEntries_roundtrip (blockSize count : Int) :
    ∀ (l : HashMap'),
      (∀ p ∈ l, p.2.length = 64) →
      (∀ p ∈ l, 0 ≤ p.1 ∧ p.1 ≤ count * blockSize) →
      (∀ p ∈ l, p.1 < 2 ^ 63) →
      ∃ es, serializeEntries l = .ok es ∧ es.length = 72 * l.length ∧
        ∀ rest : List Nat,
          deserializeEntries blockSize count l.length (es ++ rest) = .ok (l, rest) := by
  intro l
  induction l with
  | nil =>
    intro _ _ _
    exact ⟨[], rfl, rfl, fun rest => rfl⟩
  | cons p t ih =>
    intro hdig hkey hbound
    obtain ⟨k, d⟩ := p
    have hd : d.length = 64 := hdig (k, d) (by simp)
    obtain ⟨es, hes, hlen, hdes⟩ := ih
      (fun q hq => hdig q (List.mem_cons_of_mem _ hq))
      (fun q hq => hkey q (List.mem_cons_of_mem _ hq))
      (fun q hq => hbound q (List.mem_cons_of_mem _ hq))
    refine ⟨toLE k ++ d ++ es, ?_, ?_, ?_⟩
    · rw [serializeEntries, if_neg (by rw [hd]; simp), hes]
    · simp only [List.length_append, toLE_length, hd, hlen, List.length_cons]
      ring
    · intro rest
      have hk0 : 0 ≤ k := (hkey (k, d) (by simp)).1
      have hk1 : k ≤ count * blockSize := (hkey (k, d) (by simp)).2
      have hk2 : k < 2 ^ 63 := hbound (k, d) (by simp)
      have hfl : fromLE (toLE k) = k := fromLE_toLE (by omega) hk2
      rw [List.length_cons, deserializeEntries]
      simp only [List.append_assoc]
      rw [readChunk_exact (toLE_length k)]
      simp only [hfl]
      rw [if_neg (by omega)]
      simp only [readChunk_exact hd, hdes rest]

/-- C2 (amended).  For a map whose entries are strictly ascending in
key, whose digests are exactly 64 bytes, and whose keys all satisfy
`0 ≤ k ≤ |H|·B` (as do the complete block maps produced by hashing a
file), serialization succeeds with exactly `16 + 72·|H|` bytes and
deserialization returns exactly `(B, H)`. -/
theorem SerializeHashes_roundtrip (blockSize : Int) (hashes : HashMap')
    (hsort : List.Pairwise (fun p q : Int × Digest => p.1 < q.1) hashes)
    (hdig : ∀ p ∈ hashes, p.2.length = 64)
    (hkey : ∀ p ∈ hashes, 0 ≤ p.1 ∧ p.1 ≤ (hashes.length : Int) * blockSize)
    (hB0 : 0 < blockSize) (hB1 : blockSize < 2 ^ 63)
    (hcb : (hashes.length : Int) * blockSize < 2 ^ 63) :
    ∃ bs, serializeHashes blockSize hashes = .ok bs ∧
      bs.length = 16 + 72 * hashes.length ∧
      deserializeHashes bs = .ok (blockSize, hashes) := by
  have hcount : (hashes.length : Int) < 2 ^ 63 := by
    rcases Nat.eq_zero_or_pos hashes.length with h0 | h0
    · rw [h0]; norm_num
    · have h1 : (1 : Int) ≤ (hashes.length : Int) := by exact_mod_cast h0
      nlinarith
  have hboundk : ∀ p ∈ hashes, p.1 < 2 ^ 63 := by
    intro p hp
    have := (hkey p hp).2
    omega
  obtain ⟨es, hes, hlen, hdes⟩ :=
    serializeEntries_roundtrip blockSize (hashes.length : Int) hashes hdig hkey hboundk
  refine ⟨toLE blockSize ++ toLE (hashes.length : Int) ++ es, ?_, ?_, ?_⟩
  · rw [serializeHashes, sortByKey_eq_self hsort, hes]
  · simp only [List.length_append, toLE_length, hlen]
  · have hflB : fromLE (toLE blockSize) = blockSize := fromLE_toLE (by omega) hB1
    have hflC : fromLE (toLE (hashes.length : Int)) = (hashes.length : Int) :=
      fromLE_toLE (by omega) hcount
    rw [deserializeHashes, List.append_assoc, readChunk_exact (toLE_length blockSize)]
    simp only [hflB]
    rw [readChunk_exact (toLE_length _)]
    simp only [hflC, Int.toNat_natCast]
    have := hdes []
    rw [List.append_nil] at this
    rw [this]

/-- Witness for `SerializeHashes_roundtrip` at a concrete complete
two-block map with block size 4096. -/
theorem SerializeHashes_roundtrip_witness :
    ∃ bs, serializeHashes 4096 [(0, List.replicate 64 1), (4096, List.replicate 64 2)] = .ok bs ∧
      bs.length = 16 + 72 * 2 ∧
      deserializeHashes bs =
        .ok (4096, [(0, List.replicate 64 1), (4096, List.replicate 64 2)]) :=
  SerializeHashes_roundtrip 4096 _ (by decide) (by decide) (by decide)
    (by decide) (by decide) (by decide)

/-- C2 counterexample.  The pair `(B, H)` with `B = 4096` and
`H = {8192 ↦ 0^64}` is valid in the claim's sense: the digest is exactly
64 bytes and the key 8192 is a non-negative multiple of 4096 below the
hashed file size (e.g. 12288).  Yet `DeserializeHashes` rejects the
serialized bytes, because its validation bounds offsets by
`count*blockSize = 1*4096 < 8192`, so the round-trip does not return
`(B, H)`. -/
theorem SerializeHashes_roundtrip_cex :
    (List.replicate 64 (0 : Nat)).length = 64 ∧
    (8192 : Int) % 4096 = 0 ∧ (0 : Int) ≤ 8192 ∧ (8192 : Int) < 12288 ∧
    serThenDeser 4096 [(8192, List.replicate 64 0)] = .error "invalid offset" := by
  exact ⟨by decide, by decide, by decide, by decide, rfl⟩

/-- C9.  For a file whose size satisfies `0 ≤ size < blockSize` the
worker count `min(25, size/blockSize)` is zero, so `HashFile` returns
`(size, nil)` successfully while the hash map stays empty: not even the
single short block is hashed. -/
theorem HashFile_small_file_empty (blockSize fileSize : Int) (hashBlock : Int → Digest)
    (h0 : 0 ≤ fileSize) (h1 : fileSize < blockSize) :
    concurrentHashCount blockSize fileSize = 0 ∧
    hashFileModel blockSize fileSize hashBlock = (fileSize, []) := by
  have hdiv : fileSize / blockSize = 0 := Int.ediv_eq_zero_of_lt h0 h1
  have hc : concurrentHashCount blockSize fileSize = 0 := by
    rw [concurrentHashCount, hdiv]
    decide
  exact ⟨hc, by rw [hashFileModel, if_pos (le_of_eq hc)]⟩

/-- Witness for `HashFile_small_file_empty`: a 3-byte file with the
4096-byte block size. -/
theorem HashFile_small_file_empty_witness :
    concurrentHashCount 4096 3 = 0 ∧
    hashFileModel 4096 3 (fun _ => []) = (3, []) :=
  HashFile_small_file_empty 4096 3 (fun _ => []) (by decide) (by decide)

/-! ## Dial retry loops

`NetworkConnectionProvider.Connect` (sync client) and
`ProxyClient.ConnectToTarget` (proxy client).  `dial n` abstracts
whether the `n`-th dial attempt (0-based) succeeds.  Each model returns
whether a connection was obtained together with the number of dial
attempts made.  Sleeps (10s / 1s) happen between failed attempts and do
not affect the counts. -/

/-- The dial loop of `NetworkConnectionProvider.Connect`: on a failed
dial the `retryCount > 30` guard is checked, then the loop sleeps 10s
and increments `retryCount`. -/
def connectFrom (dial : Nat → Bool) (retryCount attempt : Nat) : Bool × Nat :=
  if dial attempt then (true, attempt + 1)
  else if retryCount > 30 then (false, attempt + 1)
  else connectFrom dial (retryCount + 1) (attempt + 1)
termination_by 31 - retryCount
decreasing_by omega

/-- `NetworkConnectionProvider.Connect`, starting with `retryCount = 0`. -/
def connectModel (dial : Nat → Bool) : Bool × Nat := connectFrom dial 0 0

/-- The dial loop of `ProxyClient.ConnectToTarget`: on a failed dial the
loop increments `retryCount`, sleeps 1s, and then checks
`retryCount > 30`. -/
def proxyDialFrom (dial : Nat → Bool) (retryCount attempt : Nat) : Bool × Nat :=
  if dial attempt then (true, attempt + 1)
  else if retryCount + 1 > 30 then (false, attempt + 1)
  else proxyDialFrom dial (retryCount + 1) (attempt + 1)
termination_by 30 - retryCount
decreasing_by omega

/-- `ProxyClient.ConnectToTarget`'s dial phase, starting with
`retryCount = 0`. -/
def proxyDialModel (dial : Nat → Bool) : Bool × Nat := proxyDialFrom dial 0 0

theorem connectFrom_bound (dial : Nat → Bool) :
    ∀ retryCount attempt : Nat,
      (connectFrom dial retryCount attempt).2 ≤ attempt + 1 + (31 - retryCount) ∧
      ((connectFrom dial retryCount attempt).1 = false →
        (connectFrom dial retryCount attempt).2 = attempt + 1 + (31 - retryCount)) := by
  suffices h : ∀ n retryCount attempt : Nat, 31 - retryCount = n →
      (connectFrom dial retryCount attempt).2 ≤ attempt + 1 + (31 - retryCount) ∧
      ((connectFrom dial retryCount attempt).1 = false →
        (connectFrom dial retryCount attempt).2 = attempt + 1 + (31 - retryCount)) by
    intro rc a
    exact h (31 - rc) rc a rfl
  intro n
  induction n using Nat.strong_induction_on with
  | _ n ih =>
    intro retryCount attempt hn
    rw [connectFrom]
    by_cases hd : dial attempt
    · simp [hd]
    · by_cases hr : retryCount > 30
      · have h0 : 31 - retryCount = 0 := by omega
        simp [hd, hr, h0]
      · have hlt : 31 - (retryCount + 1) < n := by omega
        have := ih (31 - (retryCount + 1)) hlt (retryCount + 1) (attempt + 1) rfl
        rw [if_neg hd, if_neg hr]
        constructor
        · calc (connectFrom dial (retryCount + 1) (attempt + 1)).2
              ≤ attempt + 1 + 1 + (31 - (retryCount + 1)) := this.1
            _ ≤ attempt + 1 + (31 - retryCount) := by omega
        · intro hf
          rw [this.2 hf]
          omega

theorem proxyDialFrom_bound (dial : Nat → Bool) :
    ∀ retryCount attempt : Nat,
      (proxyDialFrom dial retryCount attempt).2 ≤ attempt + 1 + (30 - retryCount) ∧
      ((proxyDialFrom dial retryCount attempt).1 = false →
        (proxyDialFrom dial retryCount attempt).2 = attempt + 1 + (30 - retryCount)) := by
  suffices h : ∀ n retryCount attempt : Nat, 30 - retryCount = n →
      (proxyDialFrom dial retryCount attempt).2 ≤ attempt + 1 + (30 - retryCount) ∧
      ((proxyDialFrom dial retryCount attempt).1 = false →
        (proxyDialFrom dial retryCount attempt).2 = attempt + 1 + (30 - retryCount)) by
    intro rc a
    exact h (30 - rc) rc a rfl
  intro n
  induction n using Nat.strong_induction_on with
  | _ n ih =>
    intro retryCount attempt hn
    rw [proxyDialFrom]
    by_cases hd : dial attempt
    · simp [hd]
    · by_cases hr : retryCount + 1 > 30
      · have h0 : 30 - retryCount = 0 := by omega
        simp [hd, hr, h0]
      · have hlt : 30 - (retryCount + 1) < n := by omega
        have := ih (30 - (retryCount + 1)) hlt (retryCount + 1) (attempt + 1) rfl
        rw [if_neg hd, if_neg hr]
        constructor
        · calc (proxyDialFrom dial (retryCount + 1) (attempt + 1)).2
              ≤ attempt + 1 + 1 + (30 - (retryCount + 1)) := this.1
            _ ≤ attempt + 1 + (30 - retryCount) := by omega
        · intro hf
          rw [this.2 hf]
          omega

/-- C8 (amended).  Both dial loops are bounded, but the budgets are 32
and 31 attempts, not 30: the sync client's `Connect` makes at most 32
dial attempts and, whenever it gives up, has made exactly 32; the proxy
client's dial loop makes at most 31 attempts and fails after exactly
31. -/
theorem dial_loops_bounded (dial : Nat → Bool) :
    (connectModel dial).2 ≤ 32 ∧
    ((connectModel dial).1 = false → (connectModel dial).2 = 32) ∧
    (proxyDialModel dial).2 ≤ 31 ∧
    ((proxyDialModel dial).1 = false → (proxyDialModel dial).2 = 31) := by
  have h1 := connectFrom_bound dial 0 0
  have h2 := proxyDialFrom_bound dial 0 0
  exact ⟨h1.1, h1.2, h2.1, h2.2⟩

/-! ## Sync client: BlockrsyncClient.writeBlocksToServer

The client sorts the diff offsets ascending, then for each offset reads
into a single reusable buffer `buf` (initially `blockSize` zero bytes):
`f.ReadAt(buf, offset)` fills the first `n` bytes of `buf` and leaves
the rest of `buf` untouched; if the whole buffer compares equal to the
`emptyBlock` sentinel a `HOLE` record is emitted, otherwise a `BLOCK`
record with `buf[:n]`, and `buf` is truncated to `buf[:n]`.  The model
returns the sequence of records emitted after the `source_size` header;
progress reporting and the byte-level framing are elided. -/

/-- A block-stream record as emitted by the client: offset, kind, and
payload (empty for `HOLE`). -/
inductive WireRecord
  | hole (off : Int)
  | block (off : Int) (payload : List Nat)
deriving DecidableEq

/-- Modelled from the spec: the package-level `emptyBlock` sentinel is
defined outside the provided sources; per the spec it is "a zeroed
buffer of size `B`", "a read-only sentinel used by the source to detect
all-zero blocks". -/
def emptyBlock (blockSize : Nat) : List Nat := List.replicate blockSize 0

/-- `isEmptyBlock`: `bytes.Equal(buf, emptyBlock)`. -/
def isEmptyBlock (blockSize : Nat) (buf : List Nat) : Bool :=
  buf == emptyBlock blockSize

/-- Ascending insertion (the order realized by
`slices.SortFunc(offsets, int64SortFunc)`). -/
def insertAsc (x : Int) : List Int → List Int
  | [] => [x]
  | y :: t => if x ≤ y then x :: y :: t else y :: insertAsc x t

/-- Ascending sort of the diff offsets. -/
def sortOffsets : List Int → List Int
  | [] => []
  | x :: t => insertAsc x (sortOffsets t)

theorem sortOffsets_eq_self {l : List Int} (h : List.Pairwise (· < ·) l) :
    sortOffsets l = l := by
  induction l with
  | nil => rfl
  | cons x t ih =>
    obtain ⟨h1, h2⟩ := List.pairwise_cons.mp h
    rw [sortOffsets, ih h2]
    cases t with
    | nil => rfl
    | cons y t2 =>
      have hle : x ≤ y := le_of_lt (h1 y (by simp))
      rw [insertAsc, if_pos hle]

/-- The per-offset loop of `writeBlocksToServer`: `buf` is the reusable
read buffer carried across iterations. -/
def sendBlocks (blockSize : Nat) (file : List Nat) : List Nat → List Int → List WireRecord
  | _, [] => []
  | buf, off :: rest =>
    let fresh := (file.drop off.toNat).take buf.length
    let buf' := fresh ++ buf.drop fresh.length
    if isEmptyBlock blockSize buf' then
      .hole off :: sendBlocks blockSize file buf' rest
    else
      .block off (buf'.take fresh.length) ::
        sendBlocks blockSize file (buf'.take fresh.length) rest

/-- `BlockrsyncClient.writeBlocksToServer`: sort the diff ascending and
emit one record per offset, starting from a zeroed buffer. -/
def writeBlocksToServer (blockSize : Nat) (file : List Nat) (offsets : List Int) :
    List WireRecord :=
  sendBlocks blockSize file (List.replicate blockSize 0) (sortOffsets offsets)

/-- The record sequence described in terms of the file's contents: a
full `B`-byte read emits `HOLE` exactly when the `B` bytes at the offset
are all zero, and `BLOCK` with exactly those bytes otherwise; the final
short read of `n < B` bytes emits `BLOCK` with exactly the `n` bytes
read unless those `n` bytes together with the `B−n` residual bytes still
in the reuse buffer are all zero, in which case it emits `HOLE`. -/
def specSend (blockSize : Nat) (file : List Nat) : List Nat → List Int → List WireRecord
  | _, [] => []
  | residual, off :: rest =>
    let fresh := (file.drop off.toNat).take blockSize
    if fresh.length = blockSize then
      if fresh = List.replicate blockSize 0 then
        .hole off :: specSend blockSize file fresh rest
      else
        .block off fresh :: specSend blockSize file fresh rest
    else
      if fresh ++ residual.drop fresh.length = List.replicate blockSize 0 then
        .hole off :: specSend blockSize file (fresh ++ residual.drop fresh.length) rest
      else
        .block off fresh :: specSend blockSize file fresh rest

theorem sendBlocks_eq_specSend (blockSize : Nat) (file : List Nat) :
    ∀ (offs : List Int) (buf : List Nat),
      buf.length = blockSize →
      List.Pairwise (· < ·) offs →
      (∀ o ∈ offs, 0 ≤ o ∧ (blockSize : Int) ∣ o) →
      (∀ o ∈ offs, o < (file.length : Int)) →
      sendBlocks blockSize file buf offs = specSend blockSize file buf offs := by
  intro offs
  induction offs with
  | nil => intro buf _ _ _ _; rfl
  | cons off rest ih =>
    intro buf hbuf hsorted halign hlt
    obtain ⟨hs1, hs2⟩ := List.pairwise_cons.mp hsorted
    rw [sendBlocks, specSend, hbuf]
    set fresh := (file.drop off.toNat).take blockSize with hfreshdef
    have hfreshlen : fresh.length = min blockSize (file.length - off.toNat) := by
      simp [hfreshdef, List.length_take, List.length_drop]
    by_cases hfull : min blockSize (file.length - off.toNat) = blockSize
    · -- full read: the fresh bytes fill the whole buffer
      have hlen : fresh.length = blockSize := by rw [hfreshlen, hfull]
      have hdrop : buf.drop fresh.length = [] := by
        rw [hlen, ← hbuf, List.drop_length]
      rw [hdrop, List.append_nil, if_pos hlen, List.take_length]
      have hrec := ih fresh hlen hs2 (fun o ho => halign o (List.mem_cons_of_mem _ ho))
        (fun o ho => hlt o (List.mem_cons_of_mem _ ho))
      by_cases hz : fresh = List.replicate blockSize 0
      · rw [if_pos (show isEmptyBlock blockSize fresh = true by
          simp [isEmptyBlock, emptyBlock, hz]), if_pos hz, hrec]
      · rw [if_neg (show ¬ isEmptyBlock blockSize fresh = true by
          simp [isEmptyBlock, emptyBlock, hz]), if_neg hz, hrec]
    · -- short read: this offset reaches past the end of the file, so it
      -- must be the last element of a sorted aligned in-range diff
      have hoff := halign off (by simp)
      have hofflt := hlt off (by simp)
      have hshort : fresh.length < blockSize := by
        rw [hfreshlen]; omega
      have hrest : rest = [] := by
        rcases hre : rest with _ | ⟨y, t⟩
        · rfl
        · exfalso
          have hy := hs1 y (by rw [hre]; simp)
          have hya := halign y (by rw [hre]; simp)
          have hylt := hlt y (by rw [hre]; simp)
          -- y and off are multiples of B with off < y, so y ≥ off + B;
          -- but the read at off was short, so off + B exceeds the file length
          have hdvd : (blockSize : Int) ∣ (y - off) := (hya.2).sub hoff.2
          have hyge : off + (blockSize : Int) ≤ y := by
            have hpos : 0 < y - off := by omega
            have := Int.le_of_dvd hpos hdvd
            omega
          have hflen : min blockSize (file.length - off.toNat) < blockSize := by omega
          omega
      subst hrest
      rw [if_neg (show ¬ fresh.length = blockSize by omega)]
      have htl : (fresh ++ buf.drop fresh.length).take fresh.length = fresh :=
        List.take_left _ _
      by_cases hz : fresh ++ buf.drop fresh.length = List.replicate blockSize 0
      · rw [if_pos (show isEmptyBlock blockSize (fresh ++ buf.drop fresh.length) = true by
          simp [isEmptyBlock, emptyBlock, hz]), if_pos hz]
        rfl
      · rw [if_neg (show ¬ isEmptyBlock blockSize (fresh ++ buf.drop fresh.length) = true by
          simp [isEmptyBlock, emptyBlock, hz]), if_neg hz, htl]
        rfl

/-- C7 (amended).  For a sorted, aligned, in-range diff: each full
`B`-byte read yields `HOLE` iff the `B` bytes at the offset are all
zero, else `BLOCK` with exactly those bytes; the final short read of
`n < B` bytes yields `BLOCK` with exactly the `n` bytes read, except
that it yields `HOLE` (with no payload) when those `n` bytes and the
`B−n` bytes remaining in the client's reuse buffer from the previous
read (initially zeros) are all zero. -/
theorem writeBlocksToServer_records (blockSize : Nat) (file : List Nat)
    (offsets : List Int)
    (hsorted : List.Pairwise (· < ·) offsets)
    (halign : ∀ o ∈ offsets, 0 ≤ o ∧ (blockSize : Int) ∣ o)
    (hlt : ∀ o ∈ offsets, o < (file.length : Int)) :
    writeBlocksToServer blockSize file offsets =
      specSend blockSize file (List.replicate blockSize 0) offsets := by
  rw [writeBlocksToServer, sortOffsets_eq_self hsorted]
  exact sendBlocks_eq_specSend blockSize file offsets _
    (List.length_replicate _ _) hsorted halign hlt

/-- Witness for `writeBlocksToServer_records`: block size 2 over the
4-byte file `[1,2,0,0]` with diff `{0, 2}`. -/
theorem writeBlocksToServer_records_witness :
    writeBlocksToServer 2 [1, 2, 0, 0] [0, 2] =
      specSend 2 [1, 2, 0, 0] (List.replicate 2 0) [0, 2] :=
  writeBlocksToServer_records 2 [1, 2, 0, 0] [0, 2] (by decide) (by decide) (by decide)

/-- C7 counterexample.  With `B = 2`, source file `[1,1,0]` and diff
`{2}`: the read at offset 2 returns the single byte `[0]`, which does
not equal the two-byte all-zero sentinel, so the claim requires a
`BLOCK` record carrying `[0]`; but the client emits `HOLE`, because the
comparison uses the whole reuse buffer, whose untouched second byte is
still zero. -/
theorem writeBlocksToServer_records_cex :
    writeBlocksToServer 2 [1, 1, 0] [2] = [.hole 2] ∧
    (([1, 1, 0] : List Nat).drop 2).take 2 = [0] ∧
    ([0] : List Nat) ≠ List.replicate 2 0 ∧
    writeBlocksToServer 2 [1, 1, 0] [2] ≠ [.block 2 [0]] := by
  exact ⟨rfl, rfl, by decide, by decide⟩

/-- Witness for `dial_loops_bounded` at the never-succeeding dialer. -/
theorem dial_loops_bounded_witness :
    (connectModel (fun _ => false)).2 ≤ 32 ∧
    ((connectModel (fun _ => false)).1 = false →
      (connectModel (fun _ => false)).2 = 32) ∧
    (proxyDialModel (fun _ => false)).2 ≤ 31 ∧
    ((proxyDialModel (fun _ => false)).1 = false →
      (proxyDialModel (fun _ => false)).2 = 31) :=
  dial_loops_bounded (fun _ => false)

/-- C8 counterexample.  Against a target that never accepts, the sync
client's `Connect` performs 32 dial attempts and the proxy client's loop
31, so neither loop obeys the claimed 30-attempt budget (the loops are
nonetheless bounded). -/
theorem dial_loops_cex :
    connectModel (fun _ => false) = (false, 32) ∧
    proxyDialModel (fun _ => false) = (false, 31) ∧
    ¬ ((32 : Nat) ≤ 30) ∧ ¬ ((31 : Nat) ≤ 30) := by
  refine ⟨?_, ?_, by decide, by decide⟩
  · simp [connectModel, connectFrom]
  · simp [proxyDialModel, proxyDialFrom]

/-! ## Sync server: block reception

`BlockReader` (block_reader.go) decodes records from the decompressed
stream; `BlockrsyncServer.writeBlocksToFile` reads the source size,
resizes the target, and applies records in a loop.  The stream is
modelled as the remaining bytes plus a flag telling whether, once the
bytes run out, further reads fail with a non-EOF I/O error (`trailErr`)
or with clean EOF.  The target file is its byte contents; each file
mutation is also recorded in a trace so theorems can speak about the
operations the server performed. -/

/-- Classification of a failed read: `io.EOF`, `io.ErrUnexpectedEOF`,
or any other I/O error. -/
inductive ReadErr
  | eofE
  | unexpE
  | ioE
deriving DecidableEq

/-- The decompressed inbound stream. -/
structure ByteStream where
  data : List Nat
  trailErr : Bool
deriving DecidableEq

/-- Result of reading `n` bytes. -/
inductive ReadOutcome
  | ok (bytes : List Nat) (rest : ByteStream)
  | fail (e : ReadErr) (partialBytes : List Nat)
deriving DecidableEq

/-- `io.ReadFull` of `n` bytes (also `binary.Read` for `n = 8`, and the
single-byte kind read): the full data when available; otherwise a hard
error if the stream terminates in one, clean EOF if no byte was
available, `UnexpectedEOF` if some but not all were. -/
def readN (n : Nat) (s : ByteStream) : ReadOutcome :=
  if n ≤ s.data.length then .ok (s.data.take n) ⟨s.data.drop n, s.trailErr⟩
  else if s.trailErr then .fail .ioE s.data
  else if s.data.isEmpty then .fail .eofE []
  else .fail .unexpE s.data

theorem readN_exact {n : Nat} {xs r : List Nat} {te : Bool} (h : xs.length = n) :
    readN n ⟨xs ++ r, te⟩ = .ok xs ⟨r, te⟩ := by
  subst h
  simp [readN, List.take_left, List.drop_left]

theorem readN_ok_length {n : Nat} {s : ByteStream} {bytes : List Nat}
    {rest : ByteStream} (h : readN n s = .ok bytes rest) :
    rest.data.length + n = s.data.length := by
  rw [readN] at h
  by_cases h1 : n ≤ s.data.length
  · rw [if_pos h1] at h
    cases h
    simp only [List.length_drop]
    omega
  · rw [if_neg h1] at h
    split at h <;> simp_all
    split at h <;> simp_all

/-- The mutable state of a `BlockReader`: last decoded offset, last
decoded kind byte (`0 = Hole`), and the reusable block buffer.
`NewBlockReader` starts at offset 0, kind `Hole`, zeroed buffer. -/
structure BRState where
  offset : Int
  offsetType : Nat
  buf : List Nat
deriving DecidableEq

/-- Initial `BlockReader` state. -/
def initBRState (blockSize : Nat) : BRState :=
  ⟨0, 0, List.replicate blockSize 0⟩

/-- What `BlockReader.Next` returns: the continue flag and error (as in
`handleReadError`), together with the updated reader state and stream. -/
structure NextRes where
  cont : Bool
  err : Option ReadErr
  st : BRState
  s : ByteStream
deriving DecidableEq

/-- `handleReadError`: EOF-class errors (`io.EOF`,
`io.ErrUnexpectedEOF`) are swallowed (`nil`), anything else is
returned. -/
def handleReadErrorM : ReadErr → Option ReadErr
  | .ioE => some .ioE
  | _ => none

/-- `BlockReader.Next`: read the 8-byte offset, the kind byte, and — for
a non-`Hole` kind — a full block into the buffer; on a partial final
block (`UnexpectedEOF`-class failure) truncate the buffer to the bytes
actually read and stop without error. -/
def brNext (blockSize : Nat) (st : BRState) (s : ByteStream) : NextRes :=
  match readN 8 s with
  | .fail e _ => ⟨false, handleReadErrorM e, st, s⟩
  | .ok ob s1 =>
    let off := fromLE ob
    match readN 1 s1 with
    | .fail e _ => ⟨false, handleReadErrorM e, { st with offset := off }, s1⟩
    | .ok tb s2 =>
      let st1 : BRState := { st with offset := off, offsetType := tb.headD 0 }
      if tb.headD 0 = 0 then ⟨true, none, st1, s2⟩
      else
        match readN blockSize s2 with
        | .ok blk s3 => ⟨true, none, { st1 with buf := blk }, s3⟩
        | .fail .ioE _ => ⟨false, some .ioE, st1, s2⟩
        | .fail _ part => ⟨false, none, { st1 with buf := part }, s2⟩

theorem brNext_cont_consumes (blockSize : Nat) (st : BRState) (s : ByteStream)
    (h : (brNext blockSize st s).cont = true) :
    (brNext blockSize st s).s.data.length < s.data.length := by
  rw [brNext] at h ⊢
  rcases h8 : readN 8 s with ⟨ob, s1⟩ | ⟨e, p⟩
  · rw [h8] at h
    dsimp only [] at h ⊢
    have hl8 := readN_ok_length h8
    rcases h1 : readN 1 s1 with ⟨tb, s2⟩ | ⟨e, p⟩
    · rw [h1] at h
      dsimp only [] at h ⊢
      have hl1 := readN_ok_length h1
      by_cases ht : tb.headD 0 = 0
      · rw [if_pos ht] at h ⊢
        dsimp only []
        omega
      · rw [if_neg ht] at h ⊢
        rcases hb : readN blockSize s2 with ⟨blk, s3⟩ | ⟨e2, p2⟩
        · rw [hb] at h
          dsimp only [] at h ⊢
          have hlb := readN_ok_length hb
          omega
        · rw [hb] at h
          cases e2 <;> dsimp only [] at h <;> simp at h
    · rw [h1] at h
      cases e <;> dsimp only [handleReadErrorM] at h <;> simp at h
  · rw [h8] at h
    cases e <;> dsimp only [handleReadErrorM] at h <;> simp at h

/-! ### Target-file model -/

/-- Zero-extension of a file to at least `n` bytes. -/
def padTo (file : List Nat) (n : Nat) : List Nat :=
  file ++ List.replicate (n - file.length) 0

/-- `WriteAt` / seek-and-write: overwrite `data` at byte offset `off`,
zero-extending the file if the offset is past the end. -/
def writeAt (file : List Nat) (off : Int) (data : List Nat) : List Nat :=
  (padTo file off.toNat).take off.toNat ++ data ++ file.drop (off.toNat + data.length)

/-- `f.Truncate(n)`: shrink or zero-extend to exactly `n` bytes. -/
def truncateF (file : List Nat) (n : Int) : List Nat :=
  if n.toNat ≤ file.length then file.take n.toNat else padTo file n.toNat

/-- `fallocate(PUNCH_HOLE|KEEP_SIZE)`: logically zero the intersection
of `[off, off+len)` with the file, leaving the length unchanged. -/
def punchHoleF (file : List Nat) (off len : Int) : List Nat :=
  file.enum.map (fun p => if off ≤ (p.1 : Int) ∧ (p.1 : Int) < off + len then 0 else p.2)

/-- Server-side configuration: the `--preallocate` option, whether the
underlying filesystem supports `fallocate(PUNCH_HOLE)` (sparse.go fails
with `ErrPunchHoleNotSupported` when it does not), and whether the
target is a block/character device. -/
structure ServerCfg where
  preallocation : Bool
  punchHoleOk : Bool
  isDevice : Bool
deriving DecidableEq

/-- `PunchHole` (sparse.go): deallocates the range, or fails with
`ErrPunchHoleNotSupported` on an unsupported filesystem. -/
def punchHoleCall (cfg : ServerCfg) (file : List Nat) (off len : Int) :
    Except String (List Nat) :=
  if cfg.punchHoleOk then .ok (punchHoleF file off len)
  else .error "this filesystem does not support punching holes. Use xfs, ext4, btrfs or such"

/-- Both call sites of `PunchHole` in the server discard its error
(`PunchHole(f, …)` with the result unused): on failure the file is
simply left unchanged. -/
def dropPunchResult (cfg : ServerCfg) (file : List Nat) (off len : Int) : List Nat :=
  match punchHoleCall cfg file off len with
  | .ok f => f
  | .error _ => file

/-- Trace of the file operations the server performs. -/
inductive FileOp
  | truncOp (size : Int)
  | resizePunch (off len : Int)
  | preallocWrite (off len : Int)
  | holePunch (off len : Int)
  | blockWrite (off : Int) (data : List Nat)
deriving DecidableEq

/-- `BlockrsyncServer.truncateFileIfNeeded`: regular files are truncated
to the source size; an oversized device gets the tail `[sourceSize,
targetSize)` hole-punched (the punch error is discarded). -/
def truncateFileIfNeeded (cfg : ServerCfg) (sourceSize targetSize : Int)
    (file : List Nat) : List Nat × List FileOp :=
  if cfg.isDevice = false then (truncateF file sourceSize, [.truncOp sourceSize])
  else if targetSize > sourceSize then
    (dropPunchResult cfg file sourceSize (targetSize - sourceSize),
      [.resizePunch sourceSize (targetSize - sourceSize)])
  else (file, [])

/-- `BlockrsyncServer.handleEmptyBlock`: with preallocation, write
`min(targetFileSize - offset, blockSize)` zero bytes at the offset;
otherwise punch a hole of `blockSize` bytes (punch error discarded). -/
def handleEmptyBlock (cfg : ServerCfg) (blockSize : Nat) (targetFileSize off : Int)
    (file : List Nat) : List Nat × FileOp :=
  let emptySize := min (targetFileSize - off) (blockSize : Int)
  if cfg.preallocation then
    (writeAt file off (List.replicate emptySize.toNat 0), .preallocWrite off emptySize)
  else
    (dropPunchResult cfg file off (blockSize : Int), .holePunch off (blockSize : Int))

/-- The body of the reception loop: apply the decoded record —
`handleEmptyBlock` for a `Hole` kind, `writeBlockToOffset` otherwise. -/
def applyRecord (cfg : ServerCfg) (blockSize : Nat) (targetFileSize : Int)
    (st : BRState) (file : List Nat) : List Nat × FileOp :=
  if st.offsetType = 0 then
    handleEmptyBlock cfg blockSize targetFileSize st.offset file
  else
    (writeAt file st.offset st.buf, .blockWrite st.offset st.buf)

/-- The `for cont { cont, err = blockReader.Next(); … }` loop of
`writeBlocksToFile`: an error from `Next` makes it return immediately
with success (`// Ignore error; return nil`); otherwise the decoded
state is applied — also when `Next` reported end of stream, in which
case the loop exits after that application. -/
def recvLoop (cfg : ServerCfg) (blockSize : Nat) (targetFileSize : Int)
    (st : BRState) (s : ByteStream) (file : List Nat) (trace : List FileOp) :
    List Nat × List FileOp :=
  let r := brNext blockSize st s
  match r.err with
  | some _ => (file, trace)
  | none =>
    let fa := applyRecord cfg blockSize targetFileSize r.st file
    if hc : r.cont then
      recvLoop cfg blockSize targetFileSize r.st r.s fa.1 (trace ++ [fa.2])
    else (fa.1, trace ++ [fa.2])
termination_by s.data.length
decreasing_by
  exact brNext_cont_consumes blockSize st s hc

/-- `BlockrsyncServer.writeBlocksToFile`: read the source size (non-EOF
errors there are fatal, EOF-class ends mean an empty stream and
success), set the effective target size to `max(targetFileSize,
sourceSize)`, resize, then run the reception loop. -/
def writeBlocksToFile (cfg : ServerCfg) (blockSize : Nat) (targetFileSize : Int)
    (file : List Nat) (s : ByteStream) : Except ReadErr (List Nat × List FileOp) :=
  match readN 8 s with
  | .fail e _ =>
    match handleReadErrorM e with
    | some e' => .error e'
    | none => .ok (file, [])
  | .ok sb s1 =>
    let sourceSize := fromLE sb
    let eff := max targetFileSize sourceSize
    let ft := truncateFileIfNeeded cfg sourceSize eff file
    .ok (recvLoop cfg blockSize eff (initBRState blockSize) s1 ft.1 ft.2)

/-- The trace component of a reception result (empty on error). -/
def resTrace : Except ReadErr (List Nat × List FileOp) → List FileOp
  | .ok (_, tr) => tr
  | .error _ => []

theorem recvLoop_of_err {blockSize : Nat} {st st' : BRState} {s s' : ByteStream}
    {c : Bool} {e : ReadErr} (cfg : ServerCfg) (targetFileSize : Int)
    (file : List Nat) (trace : List FileOp)
    (hr : brNext blockSize st s = ⟨c, some e, st', s'⟩) :
    recvLoop cfg blockSize targetFileSize st s file trace = (file, trace) := by
  rw [recvLoop, hr]

theorem recvLoop_of_stop {blockSize : Nat} {st st' : BRState} {s s' : ByteStream}
    (cfg : ServerCfg) (targetFileSize : Int) (file : List Nat) (trace : List FileOp)
    (hr : brNext blockSize st s = ⟨false, none, st', s'⟩) :
    recvLoop cfg blockSize targetFileSize st s file trace =
      ((applyRecord cfg blockSize targetFileSize st' file).1,
        trace ++ [(applyRecord cfg blockSize targetFileSize st' file).2]) := by
  rw [recvLoop, hr]
  rfl

theorem recvLoop_of_step {blockSize : Nat} {st st' : BRState} {s s' : ByteStream}
    (cfg : ServerCfg) (targetFileSize : Int) (file : List Nat) (trace : List FileOp)
    (hr : brNext blockSize st s = ⟨true, none, st', s'⟩) :
    recvLoop cfg blockSize targetFileSize st s file trace =
      recvLoop cfg blockSize targetFileSize st' s'
        (applyRecord cfg blockSize targetFileSize st' file).1
        (trace ++ [(applyRecord cfg blockSize targetFileSize st' file).2]) := by
  rw [recvLoop, hr]
  rfl

theorem readN_fail_ioE {n : Nat} {s : ByteStream} {p : List Nat}
    (h : readN n s = .fail .ioE p) : s.data.length < n ∧ s.trailErr = true := by
  rw [readN] at h
  by_cases h1 : n ≤ s.data.length
  · rw [if_pos h1] at h
    simp at h
  · rw [if_neg h1] at h
    by_cases h2 : s.trailErr = true
    · exact ⟨by omega, h2⟩
    · rw [if_neg h2] at h
      split at h <;> simp_all

/-- C3 (amended).  `writeBlocksToFile` propagates a non-EOF I/O error
only from the initial `source_size` read: for any stream whose first 8
bytes are readable — whatever happens afterwards, including a hard I/O
error while decoding a record — it returns success, because the record
loop discards decode errors (`// Ignore error`). -/
theorem writeBlocksToFile_error_policy (cfg : ServerCfg) (blockSize : Nat)
    (targetFileSize : Int) (file : List Nat) (s : ByteStream) :
    (∃ r, writeBlocksToFile cfg blockSize targetFileSize file s = .ok r) ∨
    (writeBlocksToFile cfg blockSize targetFileSize file s = .error .ioE ∧
      s.data.length < 8 ∧ s.trailErr = true) := by
  rw [writeBlocksToFile]
  rcases h8 : readN 8 s with ⟨sb, s1⟩ | ⟨e, p⟩
  · exact Or.inl ⟨_, rfl⟩
  · cases e
    · exact Or.inl ⟨_, rfl⟩
    · exact Or.inl ⟨_, rfl⟩
    · obtain ⟨hl, ht⟩ := readN_fail_ioE h8
      exact Or.inr ⟨rfl, hl, ht⟩

/-- C3 counterexample.  A stream carrying a valid `source_size` and then
ending in a non-EOF I/O error: decoding the first record fails with
that error (`Next` reports it), yet `writeBlocksToFile` returns success
(`ok`) — the file truncated to the source size and no record applied —
instead of returning the error. -/
theorem writeBlocksToFile_ignores_decode_error_cex :
    (brNext 2 (initBRState 2) ⟨[], true⟩).err = some .ioE ∧
    writeBlocksToFile ⟨false, true, false⟩ 2 0 [] ⟨toLE 100, true⟩ =
      .ok (List.replicate 100 0, [.truncOp 100]) := by
  constructor
  · rfl
  · have h8 : readN 8 ⟨toLE 100, true⟩ = .ok (toLE 100) ⟨[], true⟩ := by decide
    have hfl : fromLE (toLE 100) = (100 : Int) := by decide
    have htr : truncateFileIfNeeded ⟨false, true, false⟩ 100 (max 0 100) [] =
        (List.replicate 100 0, [.truncOp 100]) := by decide
    have herr : brNext 2 (initBRState 2) ⟨[], true⟩ =
        ⟨false, some .ioE, initBRState 2, ⟨[], true⟩⟩ := by decide
    rw [writeBlocksToFile, h8]
    dsimp only []
    rw [hfl, htr]
    dsimp only []
    rw [recvLoop_of_err _ _ _ _ herr]

/-- C4 evidence.  On a filesystem that cannot punch holes and with
preallocation disabled, `PunchHole` fails with
`ErrPunchHoleNotSupported`, but both call sites discard the error: hole
application (`handleEmptyBlock`, here triggered at offset 0 by a
source-size-only stream) leaves `writeBlocksToFile` returning success
with the file untouched by the punch, and the oversized-device resize
(`truncateFileIfNeeded`) likewise returns with the stale tail
`[sourceSize, targetSize)` still in place — `StartServer` never sees a
non-nil error. -/
theorem punchHole_failure_ignored_cex :
    punchHoleCall ⟨false, false, false⟩ (List.replicate 4 0) 0 2 =
      .error "this filesystem does not support punching holes. Use xfs, ext4, btrfs or such" ∧
    writeBlocksToFile ⟨false, false, false⟩ 2 0 [] ⟨toLE 4, false⟩ =
      .ok (List.replicate 4 0, [.truncOp 4, .holePunch 0 2]) ∧
    punchHoleCall ⟨false, false, true⟩ (List.replicate 8 1) 4 4 =
      .error "this filesystem does not support punching holes. Use xfs, ext4, btrfs or such" ∧
    truncateFileIfNeeded ⟨false, false, true⟩ 4 8 (List.replicate 8 1) =
      (List.replicate 8 1, [.resizePunch 4 4]) := by
  refine ⟨rfl, ?_, rfl, by decide⟩
  have h8 : readN 8 ⟨toLE 4, false⟩ = .ok (toLE 4) ⟨[], false⟩ := by decide
  have hfl : fromLE (toLE 4) = (4 : Int) := by decide
  have htr : truncateFileIfNeeded ⟨false, false, false⟩ 4 (max 0 4) [] =
      (List.replicate 4 0, [.truncOp 4]) := by decide
  have hstop : brNext 2 (initBRState 2) ⟨[], false⟩ =
      ⟨false, none, initBRState 2, ⟨[], false⟩⟩ := by decide
  have happ : applyRecord ⟨false, false, false⟩ 2 (max 0 4) (initBRState 2)
      (List.replicate 4 0) = (List.replicate 4 0, .holePunch 0 2) := by decide
  rw [writeBlocksToFile, h8]
  dsimp only []
  rw [hfl, htr]
  dsimp only []
  rw [recvLoop_of_stop _ _ _ _ hstop, happ]
  rfl

/-- C5.  A `BLOCK` record whose payload is cut short by clean stream
end after `n` bytes (`0 < n < B`): `Next` returns `(false, nil)` with
the buffer truncated to exactly those `n` bytes, and the reception loop
then writes them verbatim at the record's offset before returning
success. -/
theorem truncated_final_block (blockSize : Nat) (st : BRState) (cfg : ServerCfg)
    (targetFileSize off srcSize : Int) (payload : List Nat) (file : List Nat)
    (hlen : payload.length < blockSize) (hpos : 0 < payload.length)
    (hoff0 : 0 ≤ off) (hoff1 : off < 2 ^ 63)
    (hs0 : 0 ≤ srcSize) (hs1 : srcSize < 2 ^ 63)
    (hdev : cfg.isDevice = false) :
    brNext blockSize st ⟨toLE off ++ 1 :: payload, false⟩ =
      ⟨false, none, ⟨off, 1, payload⟩, ⟨payload, false⟩⟩ ∧
    writeBlocksToFile cfg blockSize targetFileSize file
        ⟨toLE srcSize ++ (toLE off ++ 1 :: payload), false⟩ =
      .ok (writeAt (truncateF file srcSize) off payload,
        [.truncOp srcSize, .blockWrite off payload]) := by
  have hoffl : fromLE (toLE off) = off := fromLE_toLE (by omega) hoff1
  have hsrcl : fromLE (toLE srcSize) = srcSize := fromLE_toLE (by omega) hs1
  have h1 : readN 1 ⟨1 :: payload, false⟩ = .ok [1] ⟨payload, false⟩ := by
    have h := @readN_exact 1 [1] payload false rfl
    simpa using h
  have hne : payload ≠ [] := List.ne_nil_of_length_pos hpos
  have hbfail : readN blockSize ⟨payload, false⟩ = .fail .unexpE payload := by
    rw [readN]
    rw [if_neg (by simp only []; omega)]
    rw [if_neg (by simp)]
    rw [if_neg (by simp [List.isEmpty_iff, hne])]
  have hnextAll : ∀ st0 : BRState, brNext blockSize st0 ⟨toLE off ++ 1 :: payload, false⟩ =
      ⟨false, none, ⟨off, 1, payload⟩, ⟨payload, false⟩⟩ := by
    intro st0
    rw [brNext, readN_exact (toLE_length off)]
    dsimp only []
    rw [h1]
    dsimp only []
    rw [if_neg (by decide), hbfail]
    dsimp only []
    rw [hoffl]
    rfl
  refine ⟨hnextAll st, ?_⟩
  rw [writeBlocksToFile, readN_exact (toLE_length srcSize)]
  dsimp only []
  rw [hsrcl, truncateFileIfNeeded, if_pos hdev]
  dsimp only []
  rw [recvLoop_of_stop _ _ _ _ (hnextAll (initBRState blockSize))]
  rw [applyRecord]
  rfl

/-- Witness for `truncated_final_block`: block size 2, a one-byte final
payload `[7]` at offset 2, source size 3. -/
theorem truncated_final_block_witness :
    brNext 2 (initBRState 2) ⟨toLE 2 ++ 1 :: [7], false⟩ =
      ⟨false, none, ⟨2, 1, [7]⟩, ⟨[7], false⟩⟩ ∧
    writeBlocksToFile ⟨false, true, false⟩ 2 0 [9, 9, 9]
        ⟨toLE 3 ++ (toLE 2 ++ 1 :: [7]), false⟩ =
      .ok (writeAt (truncateF [9, 9, 9] 3) 2 [7],
        [.truncOp 3, .blockWrite 2 [7]]) :=
  truncated_final_block 2 (initBRState 2) ⟨false, true, false⟩ 0 2 3 [7] [9, 9, 9]
    (by decide) (by decide) (by decide) (by decide) (by decide) (by decide) rfl

theorem recvLoop_trace_inv (cfg : ServerCfg) (blockSize : Nat) (eff : Int)
    (P : FileOp → Prop)
    (happly : ∀ st file, P (applyRecord cfg blockSize eff st file).2) :
    ∀ (s : ByteStream) (st : BRState) (file : List Nat) (trace : List FileOp),
      (∀ op ∈ trace, P op) →
      ∀ op ∈ (recvLoop cfg blockSize eff st s file trace).2, P op := by
  suffices h : ∀ (n : Nat) (s : ByteStream) (st : BRState) (file : List Nat)
      (trace : List FileOp), s.data.length = n → (∀ op ∈ trace, P op) →
      ∀ op ∈ (recvLoop cfg blockSize eff st s file trace).2, P op by
    intro s st file trace htr
    exact h s.data.length s st file trace rfl htr
  intro n
  induction n using Nat.strong_induction_on with
  | _ n ih =>
    intro s st file trace hn htr
    rcases hr : brNext blockSize st s with ⟨cont, err, st', s'⟩
    rcases err with _ | e
    · have htr' : ∀ op ∈ trace ++ [(applyRecord cfg blockSize eff st' file).2], P op := by
        intro op hop
        rcases List.mem_append.mp hop with hop | hop
        · exact htr op hop
        · rw [List.mem_singleton.mp hop]
          exact happly st' file
      cases cont
      · rw [recvLoop_of_stop cfg eff file trace hr]
        exact htr'
      · rw [recvLoop_of_step cfg eff file trace hr]
        have hc : (brNext blockSize st s).cont = true := by rw [hr]
        have hlt := brNext_cont_consumes blockSize st s hc
        rw [hr] at hlt
        dsimp only [] at hlt
        exact ih s'.data.length (by omega) s' st' _ _ rfl htr'
    · rw [recvLoop_of_err cfg eff file trace hr]
      exact htr

/-- C6.  Every hole application the server performs while receiving
blocks has the claimed size: with preallocation it zero-fills exactly
`min(B, target_file_size − offset)` bytes at the offset, where
`target_file_size = max(original target size, source_size)`; without
preallocation it punches a hole of exactly `B` bytes at the offset.  No
trace operation of the other kind appears under either setting. -/
theorem HoleRecord_op_lengths (cfg : ServerCfg) (blockSize : Nat)
    (targetFileSize srcSize : Int) (file : List Nat) (rest : List Nat) (te : Bool)
    (hs0 : -(2 ^ 63) ≤ srcSize) (hs1 : srcSize < 2 ^ 63) :
    ∀ op ∈ resTrace (writeBlocksToFile cfg blockSize targetFileSize file
        ⟨toLE srcSize ++ rest, te⟩),
      (∀ off len, op = .preallocWrite off len →
        cfg.preallocation = true ∧
          len = min (max targetFileSize srcSize - off) (blockSize : Int)) ∧
      (∀ off len, op = .holePunch off len →
        cfg.preallocation = false ∧ len = (blockSize : Int)) := by
  have hsrcl : fromLE (toLE srcSize) = srcSize := fromLE_toLE hs0 hs1
  rw [writeBlocksToFile, readN_exact (toLE_length srcSize)]
  dsimp only []
  rw [hsrcl, resTrace]
  apply recvLoop_trace_inv
  · -- every record application satisfies the size discipline
    intro st f
    rw [applyRecord]
    by_cases ht : st.offsetType = 0
    · rw [if_pos ht, handleEmptyBlock]
      by_cases hp : cfg.preallocation = true
      · rw [if_pos hp]
        constructor
        · intro off len heq
          cases heq
          exact ⟨hp, rfl⟩
        · intro off len heq
          cases heq
      · rw [if_neg hp]
        constructor
        · intro off len heq
          cases heq
        · intro off len heq
          cases heq
          refine ⟨?_, rfl⟩
          simpa using hp
    · rw [if_neg ht]
      exact ⟨(fun off len heq => nomatch heq), (fun off len heq => nomatch heq)⟩
  · -- the resize phase only emits truncate/resize operations
    intro op hop
    rw [truncateFileIfNeeded] at hop
    by_cases hd : cfg.isDevice = false
    · rw [if_pos hd] at hop
      simp only [List.mem_singleton] at hop
      subst hop
      exact ⟨(fun off len heq => nomatch heq), (fun off len heq => nomatch heq)⟩
    · rw [if_neg hd] at hop
      by_cases hgt : max targetFileSize srcSize > srcSize
      · rw [if_pos hgt] at hop
        simp only [List.mem_singleton] at hop
        subst hop
        exact ⟨(fun off len heq => nomatch heq), (fun off len heq => nomatch heq)⟩
      · rw [if_neg hgt] at hop
        simp at hop

/-- Witness for `HoleRecord_op_lengths`: preallocation off, punch-capable
filesystem, source size 4, stream with no records — the trace contains
the hole punch at offset 0, and the theorem yields its size discipline. -/
theorem HoleRecord_op_lengths_witness :
    FileOp.holePunch 0 2 ∈ resTrace (writeBlocksToFile ⟨false, true, false⟩ 2 0 []
      ⟨toLE 4 ++ [], false⟩) ∧
    ((⟨false, true, false⟩ : ServerCfg).preallocation = false ∧
      (2 : Int) = ((2 : Nat) : Int)) := by
  have h8 : readN 8 ⟨toLE 4 ++ [], false⟩ = .ok (toLE 4) ⟨[], false⟩ := by decide
  have hfl : fromLE (toLE 4) = (4 : Int) := by decide
  have htr : truncateFileIfNeeded ⟨false, true, false⟩ 4 (max 0 4) [] =
      (List.replicate 4 0, [.truncOp 4]) := by decide
  have hstop : brNext 2 (initBRState 2) ⟨[], false⟩ =
      ⟨false, none, initBRState 2, ⟨[], false⟩⟩ := by decide
  have happ : applyRecord ⟨false, true, false⟩ 2 (max 0 4) (initBRState 2)
      (List.replicate 4 0) =
      (punchHoleF (List.replicate 4 0) 0 2, .holePunch 0 2) := by decide
  have hres : resTrace (writeBlocksToFile ⟨false, true, false⟩ 2 0 []
      ⟨toLE 4 ++ [], false⟩) = [.truncOp 4, .holePunch 0 2] := by
    rw [writeBlocksToFile, h8]
    dsimp only []
    rw [hfl, htr]
    dsimp only []
    rw [recvLoop_of_stop _ _ _ _ hstop, happ]
    rfl
  have hmem : FileOp.holePunch 0 2 ∈ resTrace (writeBlocksToFile ⟨false, true, false⟩
      2 0 [] ⟨toLE 4 ++ [], false⟩) := by
    rw [hres]
    simp
  have h := HoleRecord_op_lengths ⟨false, true, false⟩ 2 0 4 [] [] false
    (by decide) (by decide)
  exact ⟨hmem, (h _ hmem).2 0 2 rfl⟩

/-- C10.  A stream holding a valid `source_size` and zero records: the
loop body still runs once on the reader's initial state (offset 0, kind
`Hole`), so after truncating, the server applies a hole at offset 0 —
zero-filling `min(B, effective_size)` bytes under preallocation,
punching a `B`-byte hole otherwise — and then returns success. -/
theorem emptyStream_applies_initial_hole (cfg : ServerCfg) (blockSize : Nat)
    (targetFileSize srcSize : Int) (file : List Nat)
    (hdev : cfg.isDevice = false)
    (hs0 : 0 ≤ srcSize) (hs1 : srcSize < 2 ^ 63) :
    ∃ f', writeBlocksToFile cfg blockSize targetFileSize file ⟨toLE srcSize, false⟩ =
      .ok (f', [.truncOp srcSize,
        if cfg.preallocation then
          .preallocWrite 0 (min (max targetFileSize srcSize) (blockSize : Int))
        else .holePunch 0 (blockSize : Int)]) := by
  have hsrcl : fromLE (toLE srcSize) = srcSize := fromLE_toLE (by omega) hs1
  have h8 : readN 8 ⟨toLE srcSize, false⟩ = .ok (toLE srcSize) ⟨[], false⟩ := by
    have h := @readN_exact 8 (toLE srcSize) [] false (toLE_length srcSize)
    simpa using h
  have hstop : brNext blockSize (initBRState blockSize) ⟨[], false⟩ =
      ⟨false, none, initBRState blockSize, ⟨[], false⟩⟩ := by
    rw [brNext]
    rw [show readN 8 ⟨[], false⟩ = .fail .eofE [] from by decide]
    rfl
  rw [writeBlocksToFile, h8]
  dsimp only []
  rw [hsrcl, truncateFileIfNeeded, if_pos hdev]
  dsimp only []
  rw [recvLoop_of_stop _ _ _ _ hstop, applyRecord]
  dsimp only [initBRState]
  rw [if_pos rfl, handleEmptyBlock]
  by_cases hp : cfg.preallocation = true
  · rw [if_pos hp, if_pos hp]
    refine ⟨writeAt (truncateF file srcSize) 0
      (List.replicate (min (max targetFileSize srcSize - 0) (blockSize : Int)).toNat 0), ?_⟩
    rw [Int.sub_zero]
    rfl
  · rw [if_neg hp, if_neg hp]
    exact ⟨dropPunchResult cfg (truncateF file srcSize) 0 (blockSize : Int), rfl⟩

/-- Witness for `emptyStream_applies_initial_hole`: block size 2, source
size 4, empty target, no preallocation. -/
theorem emptyStream_applies_initial_hole_witness :
    ∃ f', writeBlocksToFile ⟨false, true, false⟩ 2 0 [] ⟨toLE 4, false⟩ =
      .ok (f', [.truncOp 4,
        if (⟨false, true, false⟩ : ServerCfg).preallocation then
          .preallocWrite 0 (min (max 0 4) (2 : Int))
        else .holePunch 0 (2 : Int)]) :=
  emptyStream_applies_initial_hole ⟨false, true, false⟩ 2 0 4 [] rfl
    (by decide) (by decide)

end Blockrsync
